import Mathlib

/-!
Shallow embedding of `src/main.rs` of the `chance` repository: a solver that,
given integer operands and a target, enumerates subsets, permutations and
right-leaning operator-expression trees and keeps the expressions evaluating
to the target.  Rust iterators are modelled as Lean lists; Rust panics
(`panic!`, out-of-bounds `Vec::remove`, arithmetic overflow) are modelled
as `Except` errors.  Machine integers (`i32`) are modelled as `Int`; where
i32 overflow matters (the `2i32.pow(n)` bound in `power_set`, the
arithmetic inside `evaluateI32`) the two's-complement wrap of a release
build is made explicit.  The seed-dependent per-instance hashing of
`SimilarOperationKey` is made an explicit parameter of the deduplication
filter.
-/

namespace Chance

/-- Faults of the core, as named by the specification's error taxonomy:
`SetTooLarge` models the `panic!("Set is too large …")` in `power_set`,
`EmptyInput` models the out-of-bounds panic of `operands.remove(0)` in
`generate_operations` on an empty vector, and `DivisionOverflow` models the
panic Rust raises, in every build profile, on the i32 division overflow
`i32::MIN / -1` inside `evaluate`. -/
inductive Fault where
  | SetTooLarge
  | EmptyInput
  | DivisionOverflow
deriving DecidableEq, Repr

/-- Rust `enum Operator { ADD, SUBTRACT, MULTIPLY, DIVIDE }`. -/
inductive Operator where
  | ADD
  | SUBTRACT
  | MULTIPLY
  | DIVIDE
deriving DecidableEq, Repr

/-- Rust `impl Display for Operator` (the `fmt` match). -/
def Operator.display : Operator → String
  | .ADD => "+"
  | .SUBTRACT => "-"
  | .MULTIPLY => "*"
  | .DIVIDE => "/"

/-- Rust `Operator::values()`: the fixed enumeration order ADD, SUBTRACT,
DIVIDE, MULTIPLY. -/
def Operator.values : List Operator :=
  [Operator.ADD, Operator.SUBTRACT, Operator.DIVIDE, Operator.MULTIPLY]

/-- Rust `enum Operation<T> { SingleOperand(T), Operation(T, Operator, Box<Operation<T>>) }`. -/
inductive Operation (T : Type) where
  | SingleOperand (value : T)
  | Operation (operand1 : T) (operator : Operator) (operand2 : Operation T)
deriving DecidableEq, Repr

/-- Two's-complement wrap of an unbounded integer into the `i32` range,
making Rust release-mode overflow explicit. -/
def i32wrap (n : Int) : Int := (n + 2 ^ 31) % 2 ^ 32 - 2 ^ 31

/-- Rust `impl Operation<i32> { fn evaluate(&self) -> i32 }` idealized over
unbounded integers: Rust's `/` on `i32` truncates toward zero, which is
`Int.tdiv` on `Int`.  This idealization ignores i32 overflow; `evaluateI32`
below is the faithful i32 semantics, and theorems that use `evaluate` only
evaluate it where the two coincide. -/
def evaluate : Operation Int → Int
  | .SingleOperand value => value
  | .Operation operand1 operator operand2 =>
    let v2 := evaluate operand2
    match operator with
    | .ADD => operand1 + v2
    | .SUBTRACT => operand1 - v2
    | .DIVIDE => if v2 = 0 then 0 else Int.tdiv operand1 v2
    | .MULTIPLY => operand1 * v2

/-- Rust `impl Operation<i32> { fn evaluate(&self) -> i32 }` with faithful
`i32` arithmetic of the release profile: ADD, SUBTRACT and MULTIPLY reduce
their result into the i32 range by two's-complement wrap (a debug build
panics on such overflow instead), DIVIDE first yields 0 when the right
value is 0 as the source checks, and otherwise panics — in every build
profile — exactly on the remaining division overflow `i32::MIN / -1`,
modelled as the `DivisionOverflow` fault. -/
def evaluateI32 : Operation Int → Except Fault Int
  | .SingleOperand value => Except.ok value
  | .Operation operand1 operator operand2 =>
    match evaluateI32 operand2 with
    | Except.error e => Except.error e
    | Except.ok v2 =>
      match operator with
      | .ADD => Except.ok (i32wrap (operand1 + v2))
      | .SUBTRACT => Except.ok (i32wrap (operand1 - v2))
      | .DIVIDE =>
        if v2 = 0 then Except.ok 0
        else if operand1 = -(2 ^ 31) ∧ v2 = -1 then Except.error Fault.DivisionOverflow
        else Except.ok (Int.tdiv operand1 v2)
      | .MULTIPLY => Except.ok (i32wrap (operand1 * v2))

/-- Flat left-to-right rendering of `impl Display for Operation<T>` with the
operands abstracted: the list of operand values as they appear left to right. -/
def operandList : Operation T → List T
  | .SingleOperand value => [value]
  | .Operation operand1 _ operand2 => operand1 :: operandList operand2

/-- Operators of a tree as they appear left to right. -/
def operatorList : Operation T → List Operator
  | .SingleOperand _ => []
  | .Operation _ operator operand2 => operator :: operatorList operand2

/-- Number of operator applications (internal nodes) in a tree. -/
def opCount : Operation T → Nat
  | .SingleOperand _ => 0
  | .Operation _ _ operand2 => opCount operand2 + 1

/-- Rust `fn power_set<T>(vec: Vec<T>) -> impl Iterator<Item = Vec<T>>`.
The source panics when `vec.len() >= 32`; otherwise it enumerates the i32
range `0..2i32.pow(vec.len() as u32)` and keeps, for each bit vector, the
elements whose index bit is set.  The bound `2i32.pow(len)` is an `i32` and
wraps (release mode; debug mode panics) when `len = 31`, which the model
keeps via `i32wrap`; a non-positive bound makes the range empty. -/
def power_set (vec : List T) : Except Fault (List (List T)) :=
  if vec.length ≥ 32 then
    Except.error Fault.SetTooLarge
  else
    let bound : Int := i32wrap (2 ^ vec.length)
    Except.ok ((List.range (max 0 bound).toNat).map (fun bit_vector =>
      ((vec.enum.filter (fun p => 1 <<< p.1 &&& bit_vector ≠ 0)).map Prod.snd)))

/-- Recursion of Rust `fn permutations<T>(vec: Vec<T>) -> Box<Iterator<Item = Vec<T>>>`,
made structural on a fuel argument that the wrapper instantiates with
`vec.length` (the source recurses on `vec` with one element removed, so the
length decreases by exactly one at each call).  A one-element vector yields
itself; otherwise for each index `i` the element at `i` is removed
(`Vec::remove(i)`, here `l[i]?` plus `eraseIdx`), the remainder is permuted
recursively, and the removed element is pushed onto the end of each result.
With fuel `0` only the empty vector is reachable, where the source's `else`
branch iterates over the empty range and yields nothing. -/
def permsFuel : Nat → List T → List (List T)
  | 0, l => if l.length = 1 then [l] else []
  | n + 1, l =>
    if l.length = 1 then [l]
    else
      (List.range l.length).flatMap (fun i =>
        match l[i]? with
        | some removed_element => (permsFuel n (l.eraseIdx i)).map (fun p => p ++ [removed_element])
        | none => [])

/-- Rust `fn permutations<T>(vec: Vec<T>)`. -/
def permutations (vec : List T) : List (List T) := permsFuel vec.length vec

/-- Rust `fn generate_operations<T>(mut operands: Vec<T>) -> Box<Iterator<Item = Operation<T>>>`.
The source first executes `operands.remove(0)`, which panics on an empty
vector (modelled as the `EmptyInput` fault); with `operands.len() + 1 == 1`
(the rest empty) it yields the single `SingleOperand`; otherwise for each
recursively generated sub-operation and each of the four operators it yields
`Operation(first_operand, operator, sub_operation)`. -/
def generate_operations : List T → Except Fault (List (Operation T))
  | [] => Except.error Fault.EmptyInput
  | first_operand :: operands =>
    if operands.length + 1 = 1 then
      Except.ok [Operation.SingleOperand first_operand]
    else
      match generate_operations operands with
      | Except.error e => Except.error e
      | Except.ok sub_operations =>
        Except.ok (sub_operations.flatMap (fun sub_operation =>
          Operator.values.map (fun operator =>
            Operation.Operation first_operand operator sub_operation)))

/-- Rust `fn find_operations_for_value(operands: Vec<i32>, target_value: i32)`:
power set, then permutations of every subset, then all expression trees over
every permutation, filtered by `evaluate() == target_value`. -/
def find_operations_for_value (operands : List Int) (target_value : Int) :
    Except Fault (List (Operation Int)) :=
  match power_set operands with
  | Except.error e => Except.error e
  | Except.ok sets =>
    match (sets.flatMap permutations).mapM generate_operations with
    | Except.error e => Except.error e
    | Except.ok operation_lists =>
      Except.ok (operation_lists.flatten.filter (fun x => evaluate x = target_value))

/-- Rust `struct SimilarOperationKey<T>`: a set of operators and a set of
operand values (Rust `HashSet`, here `Finset`). -/
structure SimilarOperationKey (T : Type) [DecidableEq T] where
  operators : Finset Operator
  operands : Finset T

instance [DecidableEq T] : DecidableEq (SimilarOperationKey T) :=
  fun a b =>
    if h : a.operators = b.operators ∧ a.operands = b.operands then
      Decidable.isTrue (by cases a; cases b; simp only at h; simp [h.1, h.2])
    else
      Decidable.isFalse (by intro hab; cases hab; simp at h)

/-- Rust `impl From<Operation<T>> for SimilarOperationKey<T>`: a
`SingleOperand` contributes its value to the operand set; an `Operation`
node inserts its operator and left operand into the key of its right
sub-operation. -/
def SimilarOperationKey.fromOperation [DecidableEq T] : Operation T → SimilarOperationKey T
  | .SingleOperand value => ⟨∅, {value}⟩
  | .Operation operand1 operator operand2 =>
    let key := SimilarOperationKey.fromOperation operand2
    ⟨insert operator key.operators, insert operand1 key.operands⟩

/-- Insertion into a keyed map with nodup keys, modelling `HashMap::insert`
(a later value for an equal key overwrites the earlier one). -/
def mapInsert [DecidableEq K] (m : List (K × V)) (k : K) (v : V) : List (K × V) :=
  (k, v) :: m.filter (fun q => q.1 ≠ k)

/-- Behavior of `fn process_associative_operation_filter` under the
assumption that `SimilarOperationKey` hashing respected the Hash/Eq
contract — the deduplication the comment above the key type documents as
intended: pair every operation with its `SimilarOperationKey`, collect the
pairs into a map keyed by structural key equality (later pairs overwrite
earlier ones at equal keys), and emit the remaining values.  The actual
`impl Hash for SimilarOperationKey` breaks that contract;
`process_associative_operation_filter` below models the real `HashMap`. -/
def process_associative_operation_filter_hash_contract [DecidableEq T]
    (operations : List (Operation T)) : List (Operation T) :=
  (operations.foldl
    (fun m operation =>
      mapInsert m (SimilarOperationKey.fromOperation operation) operation)
    []).map Prod.snd

/-- Rust `fn process_associative_operation_filter`: pair every operation with
its `SimilarOperationKey` and collect the pairs into a `HashMap`.  The
source hashes a `SimilarOperationKey` by feeding the hasher the elements of
its two `HashSet` fields in their iteration order, and every `HashSet`
instance has its own random seed, so the hash is a property of the key
instance rather than of its equality class; `instance_hashes` makes that
per-instance hash an explicit parameter (one value per input pair, in
order).  A `HashMap` insertion replaces an earlier entry only when it finds
one — same hash bucket first, key equality within the bucket second — so an
entry is overwritten exactly when both the instance hash and the key
coincide. -/
def process_associative_operation_filter [DecidableEq T]
    (instance_hashes : List Nat) (operations : List (Operation T)) : List (Operation T) :=
  ((instance_hashes.zip operations).foldl
    (fun m p => mapInsert m (p.1, SimilarOperationKey.fromOperation p.2) p)
    []).map (fun q => q.2.2)

/-- Sum of a constantly-valued map. -/
lemma sum_map_const {A : Type} (c : Nat) : ∀ (l : List A), (l.map (fun _ => c)).sum = l.length * c
  | [] => by simp
  | _ :: t => by simp [sum_map_const c t, Nat.succ_mul, Nat.add_comm]

/-- Moving the element at index `i` to the front is a permutation. -/
lemma cons_eraseIdx_perm {T : Type} :
    ∀ (l : List T) (i : Nat) (h : i < l.length), (l[i] :: l.eraseIdx i).Perm l
  | _ :: _, 0, _ => by simp [List.eraseIdx]
  | a :: t, i + 1, h => by
    have ih := cons_eraseIdx_perm t i (Nat.lt_of_succ_lt_succ h)
    simpa [List.eraseIdx] using (List.Perm.swap a _ _).trans (ih.cons a)

/-- Specification of `permsFuel` at the fuel value `permutations` uses: for a
sequence of positive length `n`, exactly `n!` orderings are produced and each
is a permutation of the input. -/
lemma permsFuel_spec {T : Type} :
    ∀ (n : Nat) (l : List T), l.length = n → 1 ≤ n →
      (permsFuel n l).length = n.factorial ∧ ∀ p ∈ permsFuel n l, p.Perm l := by
  intro n
  induction n with
  | zero => intro l _ h; omega
  | succ m ih =>
    intro l hl _
    cases m with
    | zero =>
      refine ⟨by simp [permsFuel, hl], ?_⟩
      intro p hp
      simp [permsFuel, hl] at hp
      exact hp ▸ List.Perm.refl l
    | succ k =>
      have hne : ¬ l.length = 1 := by omega
      have herase : ∀ i, i < l.length → (l.eraseIdx i).length = k + 1 := by
        intro i hi
        rw [List.length_eraseIdx, if_pos hi, hl]
        omega
      constructor
      · simp only [permsFuel, if_neg hne]
        rw [List.length_flatMap]
        rw [List.map_congr_left (g := fun _ => (k + 1).factorial) ?_]
        · rw [sum_map_const, List.length_range, hl]
          simp [Nat.factorial_succ]
        · intro i hi
          rw [List.mem_range] at hi
          simp only [Function.comp_apply, List.getElem?_eq_getElem hi, List.length_map]
          exact (ih (l.eraseIdx i) (herase i hi) (by omega)).1
      · intro p hp
        simp only [permsFuel, if_neg hne] at hp
        rw [List.mem_flatMap] at hp
        obtain ⟨i, hi, hpi⟩ := hp
        rw [List.mem_range] at hi
        rw [List.getElem?_eq_getElem hi] at hpi
        simp only [List.mem_map] at hpi
        obtain ⟨q, hq, rfl⟩ := hpi
        have hq2 := (ih (l.eraseIdx i) (herase i hi) (by omega)).2 q hq
        exact (List.perm_append_singleton _ _).trans ((hq2.cons _).trans (cons_eraseIdx_perm l i hi))

/-- C4: for every sequence of length at least 1, the permutation generator
yields exactly `n!` orderings, and every yielded ordering is a bijective
reordering of the input: the same multiset of elements and the same length. -/
theorem permutations_spec {T : Type} (l : List T) (h : 1 ≤ l.length) :
    (permutations l).length = (l.length).factorial
    ∧ ∀ p ∈ permutations l, p.Perm l ∧ p.length = l.length := by
  obtain ⟨h1, h2⟩ := permsFuel_spec l.length l rfl h
  exact ⟨h1, fun p hp => ⟨h2 p hp, (h2 p hp).length_eq⟩⟩

/-- Witness for C4 at the concrete two-element input. -/
theorem permutations_spec_witness :
    1 ≤ ([1, 2] : List Int).length
    ∧ (permutations ([1, 2] : List Int)).length = Nat.factorial ([1, 2] : List Int).length
    ∧ (([2, 1] : List Int).Perm [1, 2] ∧ ([2, 1] : List Int).length = ([1, 2] : List Int).length) :=
  ⟨by decide,
   (permutations_spec ([1, 2] : List Int) (by decide)).1,
   (permutations_spec ([1, 2] : List Int) (by decide)).2 [2, 1] (by decide)⟩

/-- C2: for every non-empty operand sequence of length n, the expression
generator succeeds and yields exactly `4 ^ (n - 1)` trees, and every
generated tree, read left to right, uses exactly the n given operands in
the given order with `n - 1` operator applications. -/
theorem generate_operations_spec {T : Type} :
    ∀ (l : List T), l ≠ [] →
      ∃ es, generate_operations l = Except.ok es
        ∧ es.length = 4 ^ (l.length - 1)
        ∧ ∀ e ∈ es, operandList e = l ∧ opCount e = l.length - 1 := by
  intro l
  induction l with
  | nil => intro h; exact absurd rfl h
  | cons x rest ih =>
    intro _
    cases rest with
    | nil =>
      refine ⟨[Operation.SingleOperand x], rfl, rfl, ?_⟩
      intro e he
      simp only [List.mem_singleton] at he
      subst he
      exact ⟨rfl, rfl⟩
    | cons y t =>
      obtain ⟨es, h, hlen, hmem⟩ := ih (by simp)
      refine ⟨(es.flatMap (fun sub_operation =>
          Operator.values.map (fun operator =>
            Operation.Operation x operator sub_operation))), ?_, ?_, ?_⟩
      · conv_lhs => rw [generate_operations]
        rw [if_neg (by simp), h]
      · rw [List.length_flatMap]
        rw [List.map_congr_left (g := fun _ => 4) ?_]
        · rw [sum_map_const, hlen]
          simp [pow_succ]
        · intro s _
          simp [Operator.values]
      · intro e he
        rw [List.mem_flatMap] at he
        obtain ⟨s, hs, hes⟩ := he
        simp only [List.mem_map] at hes
        obtain ⟨operator, _, rfl⟩ := hes
        obtain ⟨hop, hcount⟩ := hmem s hs
        refine ⟨?_, ?_⟩
        · simp [operandList, hop]
        · simp only [opCount, hcount, List.length_cons]
          omega

/-- Witness for C2 at the concrete two-element input. -/
theorem generate_operations_spec_witness :
    ([1, 2] : List Int) ≠ []
    ∧ ∃ es, generate_operations ([1, 2] : List Int) = Except.ok es
        ∧ es.length = 4 ^ (([1, 2] : List Int).length - 1)
        ∧ ∀ e ∈ es, operandList e = [1, 2] ∧ opCount e = ([1, 2] : List Int).length - 1 :=
  ⟨by decide, generate_operations_spec [1, 2] (by decide)⟩

/-- C9: `Operator.values()` returns exactly the four operators in the fixed
enumeration order ADD, SUBTRACT, DIVIDE, MULTIPLY (DIVIDE before MULTIPLY),
and display renders ADD as "+", SUBTRACT as "-", MULTIPLY as "*", DIVIDE
as "/". -/
theorem operator_values_display :
    Operator.values = [Operator.ADD, Operator.SUBTRACT, Operator.DIVIDE, Operator.MULTIPLY]
    ∧ Operator.display Operator.ADD = "+"
    ∧ Operator.display Operator.SUBTRACT = "-"
    ∧ Operator.display Operator.MULTIPLY = "*"
    ∧ Operator.display Operator.DIVIDE = "/" :=
  ⟨rfl, rfl, rfl, rfl, rfl⟩

/-- Every fault `evaluateI32` can produce is the division-overflow panic:
division by zero is defined (0) and, in the release profile modelled here,
ADD, SUBTRACT and MULTIPLY wrap rather than fault. -/
lemma evaluateI32_error_eq : ∀ (e : Operation Int) (f : Fault),
    evaluateI32 e = Except.error f → f = Fault.DivisionOverflow := by
  intro e
  induction e with
  | SingleOperand v => intro f h; simp [evaluateI32] at h
  | Operation a op r ih =>
    intro f h
    simp only [evaluateI32] at h
    cases hr : evaluateI32 r with
    | error e2 =>
      simp only [hr] at h
      injection h with h2
      exact h2 ▸ ih e2 hr
    | ok v2 =>
      simp only [hr] at h
      split at h
      · exact Except.noConfusion h
      · exact Except.noConfusion h
      · split at h
        · exact Except.noConfusion h
        · split at h
          · cases h; rfl
          · exact Except.noConfusion h
      · exact Except.noConfusion h

/-- C5, counterexample: under faithful i32 semantics `evaluate` is not total
and DIVIDE does not truncate everywhere: at `i32::MIN / -1` the source
panics in every build profile (here the `DivisionOverflow` fault), and ADD
wraps on overflow in a release build (`i32::MAX + 1 = i32::MIN`, where the
claim's unbounded `l + r` would give `2 ^ 31`; a debug build panics there). -/
theorem evaluate_i32_not_total :
    evaluateI32 (Operation.Operation (-(2 ^ 31) : Int) Operator.DIVIDE
        (Operation.SingleOperand (-1)))
      = Except.error Fault.DivisionOverflow
    ∧ evaluateI32 (Operation.Operation ((2 ^ 31 - 1) : Int) Operator.ADD
        (Operation.SingleOperand 1))
      = Except.ok (-(2 ^ 31)) :=
  ⟨rfl, rfl⟩

/-- C5 as amended: `evaluateI32` never faults on division by zero — a DIVIDE
node whose right side evaluates to 0 yields 0 (concretely 5 / 0 = 0) — and
otherwise DIVIDE performs integer-truncating division except at the i32
division overflow `i32::MIN / -1`, which faults in every build profile;
ADD, SUBTRACT and MULTIPLY are `l + r`, `l - r`, `l * r` reduced into i32
by two's-complement wrap (release profile; a debug build panics on such
overflow); and the division overflow is the only fault `evaluateI32`
raises. -/
theorem evaluate_i32_spec :
    evaluateI32 (Operation.Operation 5 Operator.DIVIDE (Operation.SingleOperand 0))
      = Except.ok 0
    ∧ (∀ (l : Int) (r : Operation Int), evaluateI32 r = Except.ok 0 →
        evaluateI32 (Operation.Operation l Operator.DIVIDE r) = Except.ok 0)
    ∧ (∀ (l : Int) (r : Operation Int) (v : Int), evaluateI32 r = Except.ok v →
        v ≠ 0 → ¬(l = -(2 ^ 31) ∧ v = -1) →
        evaluateI32 (Operation.Operation l Operator.DIVIDE r) = Except.ok (Int.tdiv l v))
    ∧ (∀ (l : Int) (r : Operation Int) (v : Int), evaluateI32 r = Except.ok v →
        evaluateI32 (Operation.Operation l Operator.ADD r) = Except.ok (i32wrap (l + v)))
    ∧ (∀ (l : Int) (r : Operation Int) (v : Int), evaluateI32 r = Except.ok v →
        evaluateI32 (Operation.Operation l Operator.SUBTRACT r) = Except.ok (i32wrap (l - v)))
    ∧ (∀ (l : Int) (r : Operation Int) (v : Int), evaluateI32 r = Except.ok v →
        evaluateI32 (Operation.Operation l Operator.MULTIPLY r) = Except.ok (i32wrap (l * v)))
    ∧ (∀ (e : Operation Int) (f : Fault), evaluateI32 e = Except.error f →
        f = Fault.DivisionOverflow) := by
  refine ⟨rfl, ?_, ?_, ?_, ?_, ?_, evaluateI32_error_eq⟩
  · intro l r h
    simp [evaluateI32, h]
  · intro l r v h hv hc
    simp only [evaluateI32, h]
    rw [if_neg hv, if_neg hc]
  · intro l r v h
    simp [evaluateI32, h]
  · intro l r v h
    simp [evaluateI32, h]
  · intro l r v h
    simp [evaluateI32, h]

/-- Witness for C5 as amended, at concrete in-range inputs. -/
theorem evaluate_i32_spec_witness :
    evaluateI32 (Operation.Operation (7 : Int) Operator.DIVIDE (Operation.SingleOperand 2))
      = Except.ok (Int.tdiv 7 2)
    ∧ evaluateI32 (Operation.Operation (3 : Int) Operator.ADD (Operation.SingleOperand 4))
      = Except.ok (i32wrap (3 + 4)) :=
  ⟨evaluate_i32_spec.2.2.1 7 (Operation.SingleOperand 2) 2 rfl (by decide) (by decide),
   evaluate_i32_spec.2.2.2.1 3 (Operation.SingleOperand 4) 4 rfl⟩

/-- C7: the expression generator fails deterministically with the EmptyInput
fault on a zero-length operand sequence, before yielding any expression. -/
theorem generate_operations_empty_input {T : Type} :
    generate_operations ([] : List T) = Except.error Fault.EmptyInput := rfl

/-- C6: calling `power_set` with 32 or more elements fails deterministically
with the SetTooLarge fault instead of attempting the enumeration. -/
theorem power_set_set_too_large {T : Type} (vec : List T) (h : 32 ≤ vec.length) :
    power_set vec = Except.error Fault.SetTooLarge := by
  simp [power_set, h]

/-- Witness for C6 at a concrete 32-element input. -/
theorem power_set_set_too_large_witness :
    32 ≤ (List.replicate 32 (0 : Int)).length
    ∧ power_set (List.replicate 32 (0 : Int)) = Except.error Fault.SetTooLarge :=
  ⟨by decide, power_set_set_too_large (List.replicate 32 (0 : Int)) (by decide)⟩

/-- C3, failing input: on a 31-element input (length below the 32-element
guard) the source computes the bound `2i32.pow(31)`, which overflows `i32`:
a debug build panics, a release build wraps the bound to a negative value so
the enumeration range is empty and zero subsets are produced instead of the
2^31 the claim requires. -/
theorem power_set_31_overflow :
    power_set (List.replicate 31 (0 : Int)) = Except.ok ([] : List (List Int)) := rfl

/-- C10: the permutation generator yields no orderings for a zero-length
sequence (not one empty permutation and not a fault), so the empty subset
contributes no candidates and the driver on an empty operand list returns
an empty result without failing. -/
theorem permutations_empty_and_empty_driver :
    permutations ([] : List Int) = ([] : List (List Int))
    ∧ ∀ target : Int, find_operations_for_value [] target = Except.ok [] :=
  ⟨rfl, fun _ => rfl⟩

/-- C1: every expression produced by the search driver evaluates to the
target, and the search over operands 1, 2, 3 with unreachable target 100
returns an empty sequence. -/
theorem find_operations_for_value_sound :
    (∀ (operands : List Int) (target : Int) (res : List (Operation Int)),
        find_operations_for_value operands target = Except.ok res →
        ∀ e ∈ res, evaluate e = target)
    ∧ find_operations_for_value [1, 2, 3] 100 = Except.ok [] := by
  constructor
  · intro operands target res h e he
    unfold find_operations_for_value at h
    split at h
    · exact absurd h (by simp)
    · split at h
      · exact absurd h (by simp)
      · simp only [Except.ok.injEq] at h
        rw [← h] at he
        simpa using (List.mem_filter.mp he).2
  · rfl

/-- Witness for C1 at the concrete input with operands 3 and target 3. -/
theorem find_operations_for_value_sound_witness :
    evaluate (Operation.SingleOperand 3) = 3 :=
  find_operations_for_value_sound.1 [3] 3 [Operation.SingleOperand 3] rfl
    (Operation.SingleOperand 3) (by simp)


/-- Key of an operation computed directly as the sets of distinct operators
and distinct operand values appearing anywhere in the tree. -/
lemma fromOperation_toFinset {T : Type} [DecidableEq T] (e : Operation T) :
    SimilarOperationKey.fromOperation e =
      ⟨(operatorList e).toFinset, (operandList e).toFinset⟩ := by
  induction e with
  | SingleOperand v =>
    simp [SimilarOperationKey.fromOperation, operatorList, operandList]
  | Operation a op r ih =>
    simp [SimilarOperationKey.fromOperation, operatorList, operandList, ih]

/-- Keys present after a `mapInsert`. -/
lemma mapInsert_keys_mem {K V : Type} [DecidableEq K] (m : List (K × V)) (k0 : K) (v : V) (k : K) :
    (k ∈ (mapInsert m k0 v).map Prod.fst) ↔ (k = k0 ∨ k ∈ m.map Prod.fst) := by
  by_cases hk : k = k0
  · simp [mapInsert, hk]
  · simp only [mapInsert, List.map_cons, List.mem_cons, List.mem_map, List.mem_filter]
    constructor
    · rintro (h | ⟨p, ⟨hp, _⟩, rfl⟩)
      · exact Or.inl h
      · exact Or.inr ⟨p, hp, rfl⟩
    · rintro (h | ⟨p, hp, rfl⟩)
      · exact Or.inl h
      · exact Or.inr ⟨p, ⟨hp, by simpa using hk⟩, rfl⟩

/-- `mapInsert` preserves distinctness of keys. -/
lemma mapInsert_keys_nodup {K V : Type} [DecidableEq K] (m : List (K × V)) (k0 : K) (v : V)
    (h : (m.map Prod.fst).Nodup) : ((mapInsert m k0 v).map Prod.fst).Nodup := by
  simp only [mapInsert, List.map_cons, List.nodup_cons]
  refine ⟨?_, List.Nodup.sublist (List.Sublist.map Prod.fst (List.filter_sublist m)) h⟩
  simp only [List.mem_map, List.mem_filter, not_exists]
  rintro p ⟨⟨_, hne⟩, hfst⟩
  simp [hfst] at hne

/-- Every pair surviving the keyed fold either was in the accumulator or
pairs an input value with its key. -/
lemma foldl_mapInsert_mem {K V : Type} [DecidableEq K] (f : V → K) :
    ∀ (ops : List V) (m : List (K × V)) (p : K × V),
      p ∈ ops.foldl (fun acc o => mapInsert acc (f o) o) m →
      p ∈ m ∨ (p.2 ∈ ops ∧ p.1 = f p.2)
  | [], _, _ => fun h => Or.inl h
  | o :: t, m, p => fun h => by
    rcases foldl_mapInsert_mem f t (mapInsert m (f o) o) p h with h1 | h2
    · rcases List.mem_cons.mp h1 with h3 | h4
      · right
        exact ⟨by simp [h3], by simp [h3]⟩
      · left
        exact List.mem_of_mem_filter h4
    · right
      exact ⟨List.mem_cons_of_mem _ h2.1, h2.2⟩

/-- Keys present after the keyed fold. -/
lemma foldl_mapInsert_keys {K V : Type} [DecidableEq K] (f : V → K) :
    ∀ (ops : List V) (m : List (K × V)) (k : K),
      (k ∈ (ops.foldl (fun acc o => mapInsert acc (f o) o) m).map Prod.fst) ↔
        (k ∈ m.map Prod.fst ∨ k ∈ ops.map f)
  | [], m, k => by simp
  | o :: t, m, k => by
    rw [List.foldl_cons, foldl_mapInsert_keys f t (mapInsert m (f o) o) k,
      mapInsert_keys_mem]
    simp only [List.map_cons, List.mem_cons]
    tauto

/-- The keyed fold keeps the keys distinct. -/
lemma foldl_mapInsert_nodup {K V : Type} [DecidableEq K] (f : V → K) :
    ∀ (ops : List V) (m : List (K × V)), (m.map Prod.fst).Nodup →
      ((ops.foldl (fun acc o => mapInsert acc (f o) o) m).map Prod.fst).Nodup
  | [], _ => fun h => h
  | o :: t, m => fun h =>
    foldl_mapInsert_nodup f t (mapInsert m (f o) o) (mapInsert_keys_nodup m (f o) o h)

/-- Every pair surviving the keyed fold stores the key of its value. -/
lemma foldl_mapInsert_consistent {K V : Type} [DecidableEq K] (f : V → K)
    (ops : List V) (m : List (K × V)) (hm : ∀ p ∈ m, p.1 = f p.2) :
    ∀ p ∈ ops.foldl (fun acc o => mapInsert acc (f o) o) m, p.1 = f p.2 :=
  fun p hp => (foldl_mapInsert_mem f ops m p hp).elim (hm p) And.right

/-- Counting an element in a list of distinct elements gives 1 or 0. -/
lemma countP_eq_ite_of_nodup {K : Type} [DecidableEq K] (k : K) :
    ∀ (ks : List K), ks.Nodup → (ks.countP (fun x => decide (x = k))) = if k ∈ ks then 1 else 0
  | [], _ => by simp
  | a :: t, h => by
    obtain ⟨ha, ht⟩ := List.nodup_cons.mp h
    rw [List.countP_cons]
    by_cases hak : a = k
    · subst hak
      rw [countP_eq_ite_of_nodup a t ht]
      simp [ha]
    · rw [countP_eq_ite_of_nodup k t ht]
      simp [hak, Ne.symm hak, List.mem_cons]

/-- Counting a key among the first components of a nodup-keyed pair list. -/
lemma countP_fst_eq_ite_of_nodup {K V : Type} [DecidableEq K] (k : K) (m : List (K × V))
    (h : (m.map Prod.fst).Nodup) :
    m.countP (fun p => decide (p.1 = k)) = if k ∈ m.map Prod.fst then 1 else 0 := by
  have hc := countP_eq_ite_of_nodup k (m.map Prod.fst) h
  rwa [List.countP_map] at hc

/-- Two expressions receive equal deduplication keys iff they use the same
set of distinct operators and the same set of distinct operand values; and
the deduplication the source documents as intended — modelled by the
Hash/Eq-contract-respecting map — would emit, taken from its input, exactly
one expression per distinct key occurring in the input. -/
theorem similar_operation_key_contract_spec {T : Type} [DecidableEq T] :
    (∀ e₁ e₂ : Operation T,
        SimilarOperationKey.fromOperation e₁ = SimilarOperationKey.fromOperation e₂ ↔
          ((operatorList e₁).toFinset = (operatorList e₂).toFinset
            ∧ (operandList e₁).toFinset = (operandList e₂).toFinset))
    ∧ ∀ ops : List (Operation T),
        (∀ o ∈ process_associative_operation_filter_hash_contract ops, o ∈ ops)
        ∧ ∀ k : SimilarOperationKey T,
            (process_associative_operation_filter_hash_contract ops).countP
                (fun o => decide (SimilarOperationKey.fromOperation o = k))
              = if k ∈ ops.map SimilarOperationKey.fromOperation then 1 else 0 := by
  constructor
  · intro e₁ e₂
    rw [fromOperation_toFinset, fromOperation_toFinset, SimilarOperationKey.mk.injEq]
  · intro ops
    constructor
    · intro o ho
      unfold process_associative_operation_filter_hash_contract at ho
      rw [List.mem_map] at ho
      obtain ⟨p, hp, rfl⟩ := ho
      rcases foldl_mapInsert_mem SimilarOperationKey.fromOperation ops [] p hp with h | h
      · simp at h
      · exact h.1
    · intro k
      unfold process_associative_operation_filter_hash_contract
      have hnod := foldl_mapInsert_nodup SimilarOperationKey.fromOperation ops [] (by simp)
      have hcons := foldl_mapInsert_consistent SimilarOperationKey.fromOperation ops [] (by simp)
      have hkeys := foldl_mapInsert_keys SimilarOperationKey.fromOperation ops [] k
      rw [List.countP_map]
      rw [List.countP_congr (q := fun p => decide (p.1 = k)) ?_]
      · rw [countP_fst_eq_ite_of_nodup k _ hnod]
        simp only [hkeys]
        simp
      · intro p hp
        simp [hcons p hp]

/-- Exercise of the contract-model theorem at a concrete input. -/
theorem similar_operation_key_contract_spec_exercise :
    Operation.Operation (2 : Int) Operator.ADD (Operation.SingleOperand 1) ∈
      [Operation.Operation (1 : Int) Operator.ADD (Operation.SingleOperand 2),
       Operation.Operation (2 : Int) Operator.ADD (Operation.SingleOperand 1)] :=
  ((similar_operation_key_contract_spec (T := Int)).2
      [Operation.Operation (1 : Int) Operator.ADD (Operation.SingleOperand 2),
       Operation.Operation (2 : Int) Operator.ADD (Operation.SingleOperand 1)]).1
    (Operation.Operation (2 : Int) Operator.ADD (Operation.SingleOperand 1))
    (by decide)

/-- C8, failing input: the deduplication filter does not keep exactly one
expression per distinct key.  The expressions `1 + 2` and `2 + 1` receive
equal keys (same operator set, same operand value set), yet when their two
key instances hash differently — which the per-instance `impl Hash` permits,
depending on the runtime `HashSet` seeds — the `HashMap` stores them in
different buckets and the filter emits both; only when the instance hashes
coincide does the second overwrite the first as the source comment
intends. -/
theorem similar_operation_key_hash_bug :
    SimilarOperationKey.fromOperation
        (Operation.Operation (1 : Int) Operator.ADD (Operation.SingleOperand 2))
      = SimilarOperationKey.fromOperation
        (Operation.Operation (2 : Int) Operator.ADD (Operation.SingleOperand 1))
    ∧ process_associative_operation_filter [0, 1]
        [Operation.Operation (1 : Int) Operator.ADD (Operation.SingleOperand 2),
         Operation.Operation (2 : Int) Operator.ADD (Operation.SingleOperand 1)]
      = [Operation.Operation (2 : Int) Operator.ADD (Operation.SingleOperand 1),
         Operation.Operation (1 : Int) Operator.ADD (Operation.SingleOperand 2)]
    ∧ process_associative_operation_filter [0, 0]
        [Operation.Operation (1 : Int) Operator.ADD (Operation.SingleOperand 2),
         Operation.Operation (2 : Int) Operator.ADD (Operation.SingleOperand 1)]
      = [Operation.Operation (2 : Int) Operator.ADD (Operation.SingleOperand 1)] :=
  ⟨by decide, by decide, by decide⟩

end Chance
